import Mathlib

/-!
Verification of the Profiler library (src/Profiler.hpp): a shallow embedding of
the `Recorder` session/record machinery and the `Timer` state machine, together
with an executable JSON parser used to state syntactic-validity properties of
the produced trace files.

Modelling conventions:
* `std::ofstream` / the file system are modelled as an association list from
  file paths to file contents; an open stream is the path it is bound to.
* The C++ `std::mutex` is non-recursive; `BeginSession` calls the public
  `EndSession()` while already holding the mutex, which self-deadlocks.
  Operations therefore return `Option World`, `none` marking that the
  operation never completes.
* `first_record` is a `bool` that the constructor leaves uninitialized; it is
  modelled as `Option Bool` (`none` = never assigned).  A read of the
  uninitialized flag takes an oracle value (the `garbage` argument) and is
  counted in `uninit_reads`.
* Success of `std::ofstream::open` depends on the file system, so
  `beginSessionF` takes it as the oracle argument `openOK`.
-/

namespace Profiler

/-- The C++ `Profiler::Result` struct: one completed timed interval.
(`end` is a Lean keyword, hence the field name `end_`.) -/
structure Result where
  name : String
  start : Int
  end_ : Int
  thread_id : Nat
  deriving DecidableEq, Repr

/-- The C++ `Profiler::Session` struct. -/
structure Session where
  Name : String
  deriving DecidableEq, Repr

/-- The fields of the C++ `Profiler::Recorder` class (minus the mutex, which
is modelled by the deadlock behaviour of the operations). -/
structure Recorder where
  current_session : Option Session
  /-- Value `some path` models an open `std::ofstream` bound to `path`; `none` a
  closed stream. -/
  output_stream : Option String
  /-- Value `none` models the uninitialized `bool first_record` the constructor
  leaves untouched. -/
  first_record : Option Bool
  deriving DecidableEq, Repr

/-- The constructor `Recorder()` initializes only `current_session(nullptr)`; the stream is
default-constructed (closed) and `first_record` stays uninitialized. -/
def Recorder.init : Recorder :=
  { current_session := none, output_stream := none, first_record := none }

/-- The file system: an association list from paths to contents. -/
def FileSys : Type := List (String × String)

def getFile : FileSys → String → Option String
  | [], _ => none
  | (p, c) :: fs, q => if p = q then some c else getFile fs q

def setFile : FileSys → String → String → FileSys
  | [], p, c => [(p, c)]
  | (q, d) :: fs, p, c => if q = p then (p, c) :: fs else (q, d) :: setFile fs p c

/-- Appending to an open stream bound to `f`. -/
def appendFile (fs : FileSys) (f : String) (s : String) : FileSys :=
  setFile fs f ((getFile fs f).getD "" ++ s)

/-- The whole observable state: the recorder, the file system, the console log,
a count of reads of the uninitialized `first_record` flag, and a ghost list of
the records accepted (written to the stream) during the current session. -/
structure World where
  recorder : Recorder
  files : FileSys
  log : List String
  uninit_reads : Nat
  cur_records : List Result

def initWorld : World :=
  { recorder := Recorder.init, files := [], log := [], uninit_reads := 0, cur_records := [] }

/-- Effect of `std::replace(name.begin(), name.end(), fromC, toC)` on one character. -/
def replChar (fromC toC c : Char) : Char :=
  if c = fromC then toC else c

/-- The name escaping in `WriteRecord`: every `"` becomes `'`. -/
def escapeName (s : String) : String :=
  String.mk (s.data.map (replChar '"' '\''))

/-- The document header written by `Recorder::WriteHeader`. -/
def headerStr : String := "\x7b\"otherData\": \x7b\x7d,\"traceEvents\":["

/-- The document footer written by `Recorder::WriteFooter`. -/
def footerStr : String := "]\x7d"

/-- The body of one record fragment as built in `Recorder::WriteRecord`,
everything after the opening brace. -/
def recordBody (r : Result) : String :=
  "\"cat\":\"function\",\"dur\":" ++ toString (r.end_ - r.start) ++
  ",\"name\":\"" ++ escapeName r.name ++ "\",\"ph\":\"X\",\"pid\":0,\"tid\":" ++
  toString r.thread_id ++ ",\"ts\":" ++ toString r.start ++ "\x7d"

/-- The comma-free JSON object string for one record. -/
def objStr (r : Result) : String := "\x7b" ++ recordBody r

/-- The console message of `BeginSession` when the file cannot be opened. -/
def openFailMsg (filepath : String) : String :=
  "Instrumentor could not open results file " ++ filepath ++ "."

/-- Model of `Recorder::BeginSession(name, filepath)`.  Takes the lock, assigns
`first_record = true`, and if a session is already open calls `EndSession()`,
which re-locks the held non-recursive mutex: the call never completes
(`none`).  Otherwise opens the output file (truncating), and on success
constructs the session and writes the header; on failure logs an error. -/
def beginSessionF (name filepath : String) (openOK : Bool) (w : World) : Option World :=
  let w1 : World := { w with recorder := { w.recorder with first_record := some true } }
  match w1.recorder.current_session with
  | some _ => none
  | none =>
    if openOK then
      some { w1 with
        recorder := { w1.recorder with
          current_session := some { Name := name },
          output_stream := some filepath },
        files := setFile w1.files filepath headerStr,
        cur_records := [] }
    else
      some { w1 with log := w1.log ++ [openFailMsg filepath] }

/-- Model of `Recorder::EndSession()`: if a session is open, write the footer, close the
stream and delete the session; otherwise do nothing. -/
def endSessionF (w : World) : World :=
  match w.recorder.current_session with
  | none => w
  | some _ =>
    match w.recorder.output_stream with
    | some f =>
      { w with
        recorder := { w.recorder with current_session := none, output_stream := none },
        files := appendFile w.files f footerStr }
    | none =>
      { w with recorder := { w.recorder with current_session := none, output_stream := none } }

/-- Model of `Recorder::WriteRecord(result)`.  The JSON fragment is built (reading and
possibly clearing `first_record`) before the lock is taken; under the lock the
fragment is written only if a session is active, otherwise it is dropped.
`garbage` is the oracle value returned by a read of the uninitialized flag. -/
def writeRecordF (r : Result) (garbage : Bool) (w : World) : World :=
  let readVal : Bool :=
    match w.recorder.first_record with
    | some b => b
    | none => garbage
  let newReads : Nat :=
    match w.recorder.first_record with
    | some _ => w.uninit_reads
    | none => w.uninit_reads + 1
  let newFlag : Option Bool := if readVal then some false else w.recorder.first_record
  let frag : String := (if readVal then "\x7b" else ",\x7b") ++ recordBody r
  let w1 : World :=
    { w with recorder := { w.recorder with first_record := newFlag }, uninit_reads := newReads }
  match w1.recorder.current_session, w1.recorder.output_stream with
  | some _, some f =>
    { w1 with files := appendFile w1.files f frag, cur_records := w1.cur_records ++ [r] }
  | _, _ => w1

/-- One public `Recorder` operation with its oracle inputs. -/
inductive Op where
  | beginSession (name filepath : String) (openOK : Bool)
  | endSession
  | writeRecord (r : Result) (garbage : Bool)
  deriving DecidableEq, Repr

def stepOp : Op → World → Option World
  | .beginSession n fp ok, w => beginSessionF n fp ok w
  | .endSession, w => some (endSessionF w)
  | .writeRecord r g, w => some (writeRecordF r g w)

def run : List Op → World → Option World
  | [], w => some w
  | op :: ops, w =>
    match stepOp op w with
    | some w1 => run ops w1
    | none => none

/-- Join fragments with a separating comma, as the successive writes of an
open session produce them. -/
def sepJoin : List String → String
  | [] => ""
  | [s] => s
  | s :: rest => s ++ "," ++ sepJoin rest

/-- The full document a session with accepted records `rs` produces. -/
def docString (rs : List Result) : String :=
  headerStr ++ sepJoin (rs.map objStr) ++ footerStr

/-! ### The Timer state machine -/

/-- The two events in a `Timer`'s life: an explicit `Stop()` call, and the
destructor running. -/
inductive TimerEvent where
  | stop
  | destroy
  deriving DecidableEq, Repr

/-- One event acting on the `stopped` flag, returning the new flag and the
number of records forwarded to `Recorder::WriteRecord`.  `Stop()` emits
unconditionally and sets `stopped = true`; the destructor calls `Stop()` only
when `stopped == false`. -/
def timerStep : TimerEvent → Bool → Bool × Nat
  | .stop, _ => (true, 1)
  | .destroy, st => if st then (st, 0) else (true, 1)

def timerEmissionsFrom : Bool → List TimerEvent → Nat
  | _, [] => 0
  | st, ev :: evs =>
    let p := timerStep ev st
    p.2 + timerEmissionsFrom p.1 evs

/-- Records emitted by a timer (constructed with `stopped(false)`) over a list
of events. -/
def timerEmissions (evs : List TimerEvent) : Nat :=
  timerEmissionsFrom false evs

/-! ### An executable JSON parser

Used to state that the produced trace files are syntactically valid JSON
(json.org grammar over unicode scalars: values are objects, arrays, strings
with the standard escapes and no raw control characters, numbers, `true`,
`false`, `null`). -/

inductive Json where
  | null
  | bool (b : Bool)
  | num (n : Int)
  | str (s : String)
  | arr (elems : List Json)
  | obj (members : List (String × Json))

def isWsChar (c : Char) : Bool :=
  c = ' ' || c = '\n' || c = '\r' || c = '\t'

def skipWs : List Char → List Char
  | [] => []
  | c :: cs => if isWsChar c then skipWs cs else c :: cs

def isDigitChar (c : Char) : Bool :=
  48 ≤ c.toNat && c.toNat ≤ 57

/-- Split off the longest digit run. -/
def scanDigits : List Char → List Char × List Char
  | [] => ([], [])
  | c :: cs =>
    if isDigitChar c then
      let p := scanDigits cs
      (c :: p.1, p.2)
    else ([], c :: cs)

def digitsToNat (ds : List Char) : Nat :=
  ds.foldl (fun acc c => acc * 10 + (c.toNat - 48)) 0

def hexVal (c : Char) : Option Nat :=
  if 48 ≤ c.toNat && c.toNat ≤ 57 then some (c.toNat - 48)
  else if 97 ≤ c.toNat && c.toNat ≤ 102 then some (c.toNat - 87)
  else if 65 ≤ c.toNat && c.toNat ≤ 70 then some (c.toNat - 55)
  else none

/-- The single-character string escapes of JSON. -/
def escMap (c : Char) : Option Char :=
  if c = '"' then some '"'
  else if c = '\\' then some '\\'
  else if c = '/' then some '/'
  else if c = 'b' then some (Char.ofNat 8)
  else if c = 'f' then some (Char.ofNat 12)
  else if c = 'n' then some '\n'
  else if c = 'r' then some '\r'
  else if c = 't' then some '\t'
  else none

/-- Scan a JSON string body (the opening quote already consumed), returning
the decoded characters and the input after the closing quote. -/
def scanStringAux : List Char → Option (List Char × List Char)
  | [] => none
  | c :: cs =>
    if c = '"' then some ([], cs)
    else if c = '\\' then
      match cs with
      | [] => none
      | e :: cs2 =>
        if e = 'u' then
          match cs2 with
          | h1 :: h2 :: h3 :: h4 :: cs3 =>
            match hexVal h1, hexVal h2, hexVal h3, hexVal h4 with
            | some a, some b, some d, some e4 =>
              (scanStringAux cs3).map
                (fun p => (Char.ofNat (((a * 16 + b) * 16 + d) * 16 + e4) :: p.1, p.2))
            | _, _, _, _ => none
          | _ => none
        else
          match escMap e with
          | some d => (scanStringAux cs2).map (fun p => (d :: p.1, p.2))
          | none => none
    else if c.toNat < 32 then none
    else (scanStringAux cs).map (fun p => (c :: p.1, p.2))

/-- Consume an optional fraction part and an optional exponent part. -/
def scanFracExp (cs : List Char) : Option (List Char) :=
  let afterFrac : Option (List Char) :=
    match cs with
    | c :: t =>
      if c = '.' then
        let p := scanDigits t
        if p.1.isEmpty then none else some p.2
      else some (c :: t)
    | [] => some []
  match afterFrac with
  | none => none
  | some cs1 =>
    match cs1 with
    | c :: t =>
      if c = 'e' || c = 'E' then
        let t2 :=
          match t with
          | s :: t1 => if s = '+' || s = '-' then t1 else s :: t1
          | [] => []
        let p := scanDigits t2
        if p.1.isEmpty then none else some p.2
      else some (c :: t)
    | [] => some []

/-- Scan a JSON number; the returned value is its integer part. -/
def scanNumber (cs : List Char) : Option (Int × List Char) :=
  let sp : Bool × List Char :=
    match cs with
    | c :: t => if c = '-' then (true, t) else (false, c :: t)
    | [] => (false, [])
  let p := scanDigits sp.2
  if p.1.isEmpty then none
  else
    match scanFracExp p.2 with
    | none => none
    | some rest =>
      let v : Int := Int.ofNat (digitsToNat p.1)
      some (if sp.1 then -v else v, rest)

/-- Consume an expected literal character sequence. -/
def stripPre : List Char → List Char → Option (List Char)
  | [], cs => some cs
  | p :: ps, c :: cs => if c = p then stripPre ps cs else none
  | _ :: _, [] => none

mutual

/-- Parse one JSON value (leading whitespace allowed). -/
def parseVal : Nat → List Char → Option (Json × List Char)
  | 0, _ => none
  | f + 1, cs =>
    match skipWs cs with
    | [] => none
    | c :: cs1 =>
      if c = '"' then
        (scanStringAux cs1).map (fun p => (Json.str (String.mk p.1), p.2))
      else if c = '\x7b' then
        (parseObjItems f (skipWs cs1)).map (fun p => (Json.obj p.1, p.2))
      else if c = '[' then
        (parseArrItems f (skipWs cs1)).map (fun p => (Json.arr p.1, p.2))
      else if c = 't' then
        (stripPre ['r', 'u', 'e'] cs1).map (fun r => (Json.bool true, r))
      else if c = 'f' then
        (stripPre ['a', 'l', 's', 'e'] cs1).map (fun r => (Json.bool false, r))
      else if c = 'n' then
        (stripPre ['u', 'l', 'l'] cs1).map (fun r => (Json.null, r))
      else
        (scanNumber (c :: cs1)).map (fun p => (Json.num p.1, p.2))

/-- Parse the items of an array, the opening bracket and whitespace already
consumed. -/
def parseArrItems : Nat → List Char → Option (List Json × List Char)
  | 0, _ => none
  | f + 1, cs =>
    match cs with
    | c :: r => if c = ']' then some ([], r) else parseArrTail f (c :: r)
    | [] => parseArrTail f []

/-- Parse one or more comma-separated array items up to the closing bracket. -/
def parseArrTail : Nat → List Char → Option (List Json × List Char)
  | 0, _ => none
  | f + 1, cs =>
    match parseVal f cs with
    | none => none
    | some (v, cs1) =>
      match skipWs cs1 with
      | c :: cs2 =>
        if c = ',' then
          match parseArrTail f (skipWs cs2) with
          | none => none
          | some (vs, r) => some (v :: vs, r)
        else if c = ']' then some ([v], cs2)
        else none
      | [] => none

/-- Parse the members of an object, the opening brace and whitespace already
consumed. -/
def parseObjItems : Nat → List Char → Option (List (String × Json) × List Char)
  | 0, _ => none
  | f + 1, cs =>
    match cs with
    | c :: r => if c = '\x7d' then some ([], r) else parseObjTail f (c :: r)
    | [] => parseObjTail f []

/-- Parse one or more comma-separated object members up to the closing
brace. -/
def parseObjTail : Nat → List Char → Option (List (String × Json) × List Char)
  | 0, _ => none
  | f + 1, cs =>
    match cs with
    | c0 :: cs0 =>
      if c0 = '"' then
        match scanStringAux cs0 with
        | none => none
        | some (k, cs1) =>
          match skipWs cs1 with
          | c1 :: cs2 =>
            if c1 = ':' then
              match parseVal f cs2 with
              | none => none
              | some (v, cs3) =>
                match skipWs cs3 with
                | c2 :: cs4 =>
                  if c2 = ',' then
                    match parseObjTail f (skipWs cs4) with
                    | none => none
                    | some (ms, r) => some ((String.mk k, v) :: ms, r)
                  else if c2 = '\x7d' then some ([(String.mk k, v)], cs4)
                  else none
                | [] => none
            else none
          | [] => none
      else none
    | [] => none

end

/-- Parse a complete JSON document: one value and nothing but trailing
whitespace after it. -/
def jsonParse (s : String) : Option Json :=
  match parseVal (s.data.length + 1) s.data with
  | none => none
  | some (j, r) => if skipWs r = [] then some j else none

/-- Syntactic JSON validity. -/
def jsonValid (s : String) : Bool :=
  (jsonParse s).isSome

def lookupMem : List (String × Json) → String → Option Json
  | [], _ => none
  | (k, v) :: ms, q => if k = q then some v else lookupMem ms q

/-- The length of the `traceEvents` array of a parsed document, when the
document is an object whose `traceEvents` member is an array. -/
def traceEventsLen (j : Json) : Option Nat :=
  match j with
  | Json.obj ms =>
    match lookupMem ms "traceEvents" with
    | some (Json.arr vs) => some vs.length
    | _ => none
  | _ => none

/-- Names whose characters survive the quote-substitution as JSON-clean
string characters: no backslash, no raw control character. -/
def GoodName (s : String) : Prop :=
  ∀ c ∈ s.data, c ≠ '\\' ∧ 32 ≤ c.toNat

instance (s : String) : Decidable (GoodName s) := by
  unfold GoodName; infer_instance

/-- Characters that may appear verbatim in a JSON string body. -/
def GoodChars (l : List Char) : Prop :=
  ∀ c ∈ l, c ≠ '"' ∧ c ≠ '\\' ∧ 32 ≤ c.toNat

instance (l : List Char) : Decidable (GoodChars l) := by
  unfold GoodChars; infer_instance

/-- Character content of a JSON array suffix: the comma-joined item chunks
followed by the closing bracket (nonempty item list). -/
def arrJoin : List (List Char) → List Char
  | [] => [']']
  | [v] => v ++ [']']
  | v :: vs => v ++ ',' :: arrJoin vs

/-- Character content of a JSON object suffix: the comma-joined
`"key":value` member chunks followed by the closing brace (nonempty member
list). -/
def objJoin : List (List Char × List Char) → List Char
  | [] => ['\x7d']
  | [⟨k, v⟩] => '"' :: k ++ '"' :: ':' :: v ++ ['\x7d']
  | ⟨k, v⟩ :: ms => '"' :: k ++ '"' :: ':' :: v ++ ',' :: objJoin ms

/-- The chunk `vcs` parses as the value `j` at every fuel at least `n`,
consuming exactly itself, whatever follows. -/
def ParsesFree (n : Nat) (vcs : List Char) (j : Json) : Prop :=
  ∀ F, n ≤ F → ∀ rest, parseVal F (vcs ++ rest) = some (j, rest)

/-- The chunk `vcs` parses as the value `j` at every fuel at least `n`,
consuming exactly itself, when followed by a comma or a closing brace. -/
def ParsesAt (n : Nat) (vcs : List Char) (j : Json) : Prop :=
  ∀ F, n ≤ F → ∀ c rest, c = ',' ∨ c = '\x7d' →
    parseVal F (vcs ++ c :: rest) = some (j, c :: rest)

/-- The invariant of claim C9: the output stream is open if and only if a
session is active. -/
def StreamInv (w : World) : Prop :=
  w.recorder.output_stream.isSome = w.recorder.current_session.isSome

/-- The session-content invariant: while a session is active, its file holds
the header followed by the comma-joined accepted fragments, and `first_record`
tracks whether any record has been accepted; with no session the stream is
closed. -/
def SessionInv (w : World) : Prop :=
  match w.recorder.current_session, w.recorder.output_stream with
  | some _, some f =>
    getFile w.files f = some (headerStr ++ sepJoin (w.cur_records.map objStr)) ∧
    w.recorder.first_record = some w.cur_records.isEmpty
  | none, none => True
  | _, _ => False

/-- Operations that are not a successful `BeginSession`. -/
def NoOpenBegin : Op → Prop
  | .beginSession _ _ ok => ok = false
  | .endSession => True
  | .writeRecord _ _ => True

instance (op : Op) : Decidable (NoOpenBegin op) := by
  cases op <;> unfold NoOpenBegin <;> infer_instance

/-- The world after opening a session and accepting one record; a concrete
reachable in-session state. -/
def c1World : World :=
  (run [Op.beginSession "T" "out.json" true,
        Op.writeRecord { name := "A", start := 1000, end_ := 1500, thread_id := 7 } false]
     initWorld).getD initWorld

/-! ### File-system lemmas -/

theorem getFile_setFile_self (fs : FileSys) (p c : String) :
    getFile (setFile fs p c) p = some c := by
  induction fs with
  | nil => simp [getFile, setFile]
  | cons hd tl ih =>
    obtain ⟨q, d⟩ := hd
    by_cases h : q = p <;> simp [getFile, setFile, h, ih]

theorem getFile_setFile_ne (fs : FileSys) (p q c : String) (h : p ≠ q) :
    getFile (setFile fs p c) q = getFile fs q := by
  induction fs with
  | nil => simp [getFile, setFile, h]
  | cons hd tl ih =>
    obtain ⟨a, d⟩ := hd
    by_cases ha : a = p
    · subst ha; simp [getFile, setFile, h]
    · simp [getFile, setFile, ha, ih]

theorem getFile_appendFile_self (fs : FileSys) (f s : String) :
    getFile (appendFile fs f s) f = some ((getFile fs f).getD "" ++ s) :=
  getFile_setFile_self ..

/-! ### Lemmas on joined fragments -/

theorem sepJoin_append_one (xs : List String) (x : String) :
    sepJoin (xs ++ [x]) = if xs.isEmpty then x else sepJoin xs ++ "," ++ x := by
  induction xs with
  | nil => rfl
  | cons a t ih =>
    cases t with
    | nil => rfl
    | cons b t2 =>
      have ih2 : sepJoin (b :: t2 ++ [x]) = sepJoin (b :: t2) ++ "," ++ x := by
        simpa using ih
      simp only [List.cons_append] at ih2 ⊢
      simp [sepJoin, ih2, String.append_assoc]

/-! ### Timer lemmas -/

theorem timerEmissionsFrom_true_stops (n : Nat) :
    timerEmissionsFrom true (List.replicate n TimerEvent.stop ++ [TimerEvent.destroy]) = n := by
  induction n with
  | zero => rfl
  | succ n ih =>
    rw [List.replicate_succ, List.cons_append]
    simp only [timerEmissionsFrom, timerStep]
    rw [ih]
    omega

/-- C4 (amended): an explicit `Stop()` always emits; only the destructor is
guarded, so `n` explicit stops followed by destruction emit `max n 1`
records. -/
theorem c4_stop_unguarded (n : Nat) :
    timerEmissions (List.replicate n TimerEvent.stop ++ [TimerEvent.destroy]) = max n 1 := by
  cases n with
  | zero => rfl
  | succ n =>
    rw [timerEmissions, List.replicate_succ, List.cons_append]
    simp only [timerEmissionsFrom, timerStep]
    rw [timerEmissionsFrom_true_stops]
    omega

/-- C4 counterexample: two explicit `Stop()` calls forward two records, not
one, because `Timer::Stop` never consults the `stopped` flag. -/
theorem c4_counterexample :
    timerEmissions [TimerEvent.stop, TimerEvent.stop] = 2 ∧
    ¬ timerEmissions [TimerEvent.stop, TimerEvent.stop] = 1 := by
  decide

/-- C5: a timer that receives at most one explicit `Stop()` and is then
destroyed emits exactly one record: the destructor stops an unstopped timer
and stays silent after an explicit stop. -/
theorem c5_one_record_per_lifetime (n : Nat) (h : n ≤ 1) :
    timerEmissions (List.replicate n TimerEvent.stop ++ [TimerEvent.destroy]) = 1 := by
  interval_cases n <;> decide

theorem c5_witness :
    timerEmissions (List.replicate 1 TimerEvent.stop ++ [TimerEvent.destroy]) = 1 :=
  c5_one_record_per_lifetime 1 (by decide)

/-! ### Concrete run theorems -/

/-- C2: the exact bytes of the single-record scenario, including field order,
`dur` = end minus start, `ts` = start, `pid` = 0 and `ph` = X. -/
theorem c2_exact_bytes :
    (run [Op.beginSession "T" "out.json" true,
          Op.writeRecord { name := "A", start := 1000, end_ := 1500, thread_id := 7 } false,
          Op.endSession] initWorld).bind (fun w => getFile w.files "out.json")
      = some "\x7b\"otherData\": \x7b\x7d,\"traceEvents\":[\x7b\"cat\":\"function\",\"dur\":500,\"name\":\"A\",\"ph\":\"X\",\"pid\":0,\"tid\":7,\"ts\":1000\x7d]\x7d" := by
  decide

/-- C3: calling `BeginSession` twice without an intervening `EndSession` never
completes: `BeginSession` holds the non-recursive mutex and calls the public
`EndSession()`, which locks it again (self-deadlock, undefined behaviour), so
the first file is never finalized and the second is never opened. -/
theorem c3_double_begin_deadlocks :
    run [Op.beginSession "A" "a.json" true, Op.beginSession "B" "b.json" true] initWorld
      = none := by
  rfl

/-- C6: a `WriteRecord` with no active session completes without any error and
leaves every output file and the console log untouched. -/
theorem c6_write_no_session_dropped (w : World) (r : Result) (g : Bool)
    (h : w.recorder.current_session = none) :
    stepOp (Op.writeRecord r g) w = some (writeRecordF r g w) ∧
    (writeRecordF r g w).files = w.files ∧
    (writeRecordF r g w).log = w.log := by
  refine ⟨rfl, ?_, ?_⟩ <;> simp [writeRecordF, h]

theorem c6_witness :
    stepOp (Op.writeRecord { name := "A", start := 0, end_ := 1, thread_id := 2 } false)
        initWorld
      = some (writeRecordF { name := "A", start := 0, end_ := 1, thread_id := 2 } false
        initWorld) ∧
    (writeRecordF { name := "A", start := 0, end_ := 1, thread_id := 2 } false
        initWorld).files = initWorld.files ∧
    (writeRecordF { name := "A", start := 0, end_ := 1, thread_id := 2 } false
        initWorld).log = initWorld.log :=
  c6_write_no_session_dropped initWorld _ false rfl

/-- C10 counterexample: a `WriteRecord` issued on a fresh recorder, before any
`BeginSession`, does read the uninitialized `first_record` flag (the
fragment-building code consults it before checking for a session). -/
theorem c10_counterexample :
    initWorld.uninit_reads = 0 ∧
    (writeRecordF { name := "A", start := 0, end_ := 0, thread_id := 0 } false
        initWorld).uninit_reads = 1 := by
  decide

/-- C10 (amended): a `WriteRecord` before the first `BeginSession` performs
exactly one read of the unassigned `first_record` flag, but since no session
is active nothing is written and no output file depends on the value the read
returns. -/
theorem c10_uninit_read_harmless (r : Result) (g g2 : Bool) (w : World)
    (h1 : w.recorder.first_record = none) (h2 : w.recorder.current_session = none) :
    (writeRecordF r g w).uninit_reads = w.uninit_reads + 1 ∧
    (writeRecordF r g w).files = w.files ∧
    (writeRecordF r g2 w).files = (writeRecordF r g w).files := by
  refine ⟨?_, ?_, ?_⟩ <;> simp [writeRecordF, h1, h2]

/-! ### Invariant preservation -/

/-- C9: the stream-open-iff-session-active invariant holds for a fresh
recorder and is preserved by every completed public operation, including the
file-open-failure branch of `BeginSession`. -/
theorem c9_stream_iff_session :
    StreamInv initWorld ∧
    ∀ op w w1, StreamInv w → stepOp op w = some w1 → StreamInv w1 := by
  refine ⟨rfl, ?_⟩
  intro op w w1 hw hstep
  cases op with
  | beginSession n fp ok =>
    simp only [stepOp] at hstep
    unfold beginSessionF at hstep
    rcases hcs : w.recorder.current_session with _ | s
    · simp only [hcs] at hstep
      cases ok with
      | true =>
        rw [if_pos rfl] at hstep
        injection hstep with h
        subst h
        rfl
      | false =>
        rw [if_neg (by simp)] at hstep
        injection hstep with h
        subst h
        unfold StreamInv at hw ⊢
        rw [hcs] at hw
        simpa using hw
    · simp [hcs] at hstep
  | endSession =>
    simp only [stepOp] at hstep
    unfold endSessionF at hstep
    rcases hcs : w.recorder.current_session with _ | s
    · rw [hcs] at hstep
      injection hstep with h
      subst h
      exact hw
    · rw [hcs] at hstep
      rcases hos : w.recorder.output_stream with _ | f <;> rw [hos] at hstep <;>
        injection hstep with h <;> subst h <;> rfl
  | writeRecord r g =>
    simp only [stepOp] at hstep
    unfold writeRecordF at hstep
    rcases hcs : w.recorder.current_session with _ | s <;>
      rcases hos : w.recorder.output_stream with _ | f <;>
        simp only [hcs, hos] at hstep <;>
          injection hstep with h <;> subst h <;>
            unfold StreamInv at hw ⊢ <;> simp_all [hcs, hos]

theorem c9_witness : StreamInv initWorld :=
  c9_stream_iff_session.2 Op.endSession initWorld initWorld rfl rfl

theorem sessionInv_init : SessionInv initWorld := by
  unfold SessionInv initWorld Recorder.init
  exact trivial

theorem sessionInv_step (op : Op) (w w1 : World) (hw : SessionInv w)
    (hstep : stepOp op w = some w1) : SessionInv w1 := by
  cases op with
  | beginSession n fp ok =>
    simp only [stepOp] at hstep
    unfold beginSessionF at hstep
    rcases hcs : w.recorder.current_session with _ | s
    · simp only [hcs] at hstep
      cases ok with
      | true =>
        simp only [if_pos] at hstep
        obtain rfl : _ = w1 := Option.some.injEq _ _ ▸ hstep
        unfold SessionInv
        simp [getFile_setFile_self, sepJoin, String.append_empty]
      | false =>
        simp only [Bool.false_eq_true, if_false] at hstep
        obtain rfl : _ = w1 := Option.some.injEq _ _ ▸ hstep
        unfold SessionInv at hw ⊢
        simp only [hcs] at hw
        rcases hos : w.recorder.output_stream with _ | f
        · exact trivial
        · rw [hos] at hw; exact hw
    · simp [hcs] at hstep
  | endSession =>
    simp only [stepOp] at hstep
    unfold endSessionF at hstep
    rcases hcs : w.recorder.current_session with _ | s
    · rw [hcs] at hstep
      obtain rfl : w = w1 := Option.some.injEq _ _ ▸ hstep
      exact hw
    · rw [hcs] at hstep
      rcases hos : w.recorder.output_stream with _ | f <;> rw [hos] at hstep <;>
        obtain rfl : _ = w1 := Option.some.injEq _ _ ▸ hstep <;>
          unfold SessionInv <;> exact trivial
  | writeRecord r g =>
    simp only [stepOp] at hstep
    unfold writeRecordF at hstep
    rcases hcs : w.recorder.current_session with _ | s
    · rcases hos : w.recorder.output_stream with _ | f
      · simp only [hcs, hos] at hstep
        obtain rfl : _ = w1 := Option.some.injEq _ _ ▸ hstep
        unfold SessionInv at hw ⊢
        simp_all
      · unfold SessionInv at hw
        rw [hcs, hos] at hw
        exact absurd hw not_false
    · rcases hos : w.recorder.output_stream with _ | f
      · unfold SessionInv at hw
        rw [hcs, hos] at hw
        exact absurd hw not_false
      · unfold SessionInv at hw
        rw [hcs, hos] at hw
        obtain ⟨hcontent, hflag⟩ := hw
        simp only [hcs, hos, hflag] at hstep
        obtain rfl : _ = w1 := Option.some.injEq _ _ ▸ hstep
        unfold SessionInv
        simp only [hcs, hos]
        constructor
        · rw [getFile_appendFile_self, hcontent]
          rcases hemp : w.cur_records with _ | ⟨r0, rs0⟩
          · simp [sepJoin, objStr, String.append_empty, String.append_assoc]
          · simp only [Option.getD_some, List.isEmpty_cons, Bool.false_eq_true, if_false,
              List.map_cons, List.map_append, List.map_nil]
            rw [sepJoin_append_one]
            simp only [List.isEmpty_cons, Bool.false_eq_true, if_false]
            rw [show (",\x7b" : String) ++ recordBody r = "," ++ objStr r from by
              rw [objStr, ← String.append_assoc]; rfl]
            simp [String.append_assoc]
        · rcases w.cur_records with _ | ⟨r0, rs0⟩ <;> simp

/-! ### Character-level parser lemmas -/

theorem skipWs_not_ws (c : Char) (cs : List Char) (h : isWsChar c = false) :
    skipWs (c :: cs) = c :: cs := by
  simp [skipWs, h]

theorem scanStringAux_good (s : List Char) : ∀ rest : List Char, GoodChars s →
    scanStringAux (s ++ '"' :: rest) = some (s, rest) := by
  induction s with
  | nil => intro rest _; unfold scanStringAux; simp
  | cons c t ih =>
    intro rest h
    obtain ⟨h1, h2, h3⟩ := h c (List.mem_cons_self ..)
    have ht : GoodChars t := fun d hd => h d (List.mem_cons_of_mem _ hd)
    rw [List.cons_append]
    unfold scanStringAux
    rw [if_neg h1, if_neg h2, if_neg (by omega : ¬ c.toNat < 32), ih rest ht]
    rfl

theorem digitChar_isDigit (n : Nat) (h : n < 10) :
    isDigitChar (Nat.digitChar n) = true := by
  interval_cases n <;> decide

theorem toDigitsCore_digits : ∀ (fuel n : Nat) (ds : List Char),
    (∀ c ∈ ds, isDigitChar c = true) →
    ∀ c ∈ Nat.toDigitsCore 10 fuel n ds, isDigitChar c = true := by
  intro fuel
  induction fuel with
  | zero => intro n ds hds; simpa [Nat.toDigitsCore] using hds
  | succ f ih =>
    intro n ds hds c hc
    simp only [Nat.toDigitsCore] at hc
    by_cases h : n / 10 = 0
    · rw [if_pos h] at hc
      rcases List.mem_cons.mp hc with h1 | h1
      · subst h1; exact digitChar_isDigit _ (Nat.mod_lt _ (by omega))
      · exact hds c h1
    · rw [if_neg h] at hc
      refine ih (n / 10) _ ?_ c hc
      intro d hd
      rcases List.mem_cons.mp hd with h1 | h1
      · subst h1; exact digitChar_isDigit _ (Nat.mod_lt _ (by omega))
      · exact hds d h1

theorem toDigitsCore_ne_nil : ∀ (fuel n : Nat) (ds : List Char),
    (fuel ≠ 0 ∨ ds ≠ []) → Nat.toDigitsCore 10 fuel n ds ≠ [] := by
  intro fuel
  induction fuel with
  | zero =>
    intro n ds h
    rcases h with h | h
    · exact absurd rfl h
    · simpa [Nat.toDigitsCore] using h
  | succ f ih =>
    intro n ds h
    simp only [Nat.toDigitsCore]
    by_cases h0 : n / 10 = 0
    · rw [if_pos h0]; simp
    · rw [if_neg h0]
      exact ih (n / 10) _ (Or.inr (by simp))

theorem natRepr_digits (n : Nat) : ∀ c ∈ (Nat.repr n).data, isDigitChar c = true :=
  toDigitsCore_digits (n + 1) n [] (by simp)

theorem natRepr_ne_nil (n : Nat) : (Nat.repr n).data ≠ [] :=
  toDigitsCore_ne_nil (n + 1) n [] (Or.inl (by omega))

/-- The characters a digit can be confused with during parsing. -/
theorem digit_char_facts (d : Char) (hd : isDigitChar d = true) :
    isWsChar d = false ∧ d ≠ '"' ∧ d ≠ '\x7b' ∧ d ≠ '[' ∧ d ≠ 't' ∧ d ≠ 'f' ∧
      d ≠ 'n' ∧ d ≠ '-' := by
  have h1 : 48 ≤ d.toNat ∧ d.toNat ≤ 57 := by
    simpa [isDigitChar, Bool.and_eq_true, decide_eq_true_eq] using hd
  obtain ⟨ha, hb⟩ := h1
  refine ⟨?_, ?_, ?_, ?_, ?_, ?_, ?_, ?_⟩
  · simp only [isWsChar, Bool.or_eq_false_iff, decide_eq_false_iff_not]
    refine ⟨⟨⟨?_, ?_⟩, ?_⟩, ?_⟩ <;> (intro h; subst h; revert ha hb; decide)
  all_goals (intro h; subst h; revert ha hb; decide)

theorem scanDigits_append (ds : List Char) : ∀ rest : List Char,
    (∀ c ∈ ds, isDigitChar c = true) →
    (∀ c cs2, rest = c :: cs2 → isDigitChar c = false) →
    scanDigits (ds ++ rest) = (ds, rest) := by
  induction ds with
  | nil =>
    intro rest _ hrest
    cases rest with
    | nil => rfl
    | cons c cs2 => simp [scanDigits, hrest c cs2 rfl]
  | cons d t ih =>
    intro rest hds hrest
    have hd := hds d (List.mem_cons_self ..)
    simp [scanDigits, hd, ih rest (fun c hc => hds c (List.mem_cons_of_mem _ hc)) hrest]

theorem scanFracExp_stop (c : Char) (rest : List Char)
    (h1 : c ≠ '.') (h2 : c ≠ 'e') (h3 : c ≠ 'E') :
    scanFracExp (c :: rest) = some (c :: rest) := by
  simp [scanFracExp, h1, h2, h3]

theorem scanNumber_int (i : Int) :
    ∃ v : Int, ∀ c rest, c = ',' ∨ c = '\x7d' →
      scanNumber ((toString i).data ++ c :: rest) = some (v, c :: rest) := by
  have hstop : ∀ c : Char, c = ',' ∨ c = '\x7d' →
      isDigitChar c = false ∧ c ≠ '.' ∧ c ≠ 'e' ∧ c ≠ 'E' := by
    rintro c (rfl | rfl) <;> exact ⟨by decide, by decide, by decide, by decide⟩
  cases i with
  | ofNat n =>
    refine ⟨Int.ofNat (digitsToNat (Nat.repr n).data), ?_⟩
    intro c rest hc
    obtain ⟨hcd, hc1, hc2, hc3⟩ := hstop c hc
    show scanNumber ((Nat.repr n).data ++ c :: rest)
      = some (Int.ofNat (digitsToNat (Nat.repr n).data), c :: rest)
    rcases hd : (Nat.repr n).data with _ | ⟨d, dt⟩
    · exact absurd hd (natRepr_ne_nil n)
    · have hdigs : ∀ x ∈ d :: dt, isDigitChar x = true := hd ▸ natRepr_digits n
      have hdd : d ≠ '-' :=
        (digit_char_facts d (hdigs d (List.mem_cons_self ..))).2.2.2.2.2.2.2
      have hsd : scanDigits ((d :: dt) ++ (c :: rest)) = (d :: dt, c :: rest) :=
        scanDigits_append (d :: dt) (c :: rest) hdigs
          (fun c0 cs2 h => by cases h; exact hcd)
      rw [List.cons_append]
      unfold scanNumber
      dsimp only
      rw [if_neg hdd]
      dsimp only
      rw [← List.cons_append, hsd]
      simp only [List.isEmpty_cons, Bool.false_eq_true, if_false,
        scanFracExp_stop c rest hc1 hc2 hc3]
  | negSucc m =>
    refine ⟨-Int.ofNat (digitsToNat (Nat.repr (m + 1)).data), ?_⟩
    intro c rest hc
    obtain ⟨hcd, hc1, hc2, hc3⟩ := hstop c hc
    show scanNumber ('-' :: ((Nat.repr (m + 1)).data ++ c :: rest))
      = some (-Int.ofNat (digitsToNat (Nat.repr (m + 1)).data), c :: rest)
    rcases hd : (Nat.repr (m + 1)).data with _ | ⟨d, dt⟩
    · exact absurd hd (natRepr_ne_nil (m + 1))
    · have hdigs : ∀ x ∈ d :: dt, isDigitChar x = true := hd ▸ natRepr_digits (m + 1)
      have hsd : scanDigits ((d :: dt) ++ (c :: rest)) = (d :: dt, c :: rest) :=
        scanDigits_append (d :: dt) (c :: rest) hdigs
          (fun c0 cs2 h => by cases h; exact hcd)
      unfold scanNumber
      dsimp only
      rw [if_pos rfl]
      dsimp only
      rw [hsd]
      simp only [List.isEmpty_cons, Bool.false_eq_true, if_false,
        scanFracExp_stop c rest hc1 hc2 hc3]
      simp

theorem sessionInv_run (ops : List Op) : ∀ w w1, SessionInv w →
    run ops w = some w1 → SessionInv w1 := by
  induction ops with
  | nil =>
    intro w w1 hw h
    obtain rfl : w = w1 := Option.some.injEq _ _ ▸ h
    exact hw
  | cons op t ih =>
    intro w w1 hw h
    unfold run at h
    rcases hs : stepOp op w with _ | w2
    · rw [hs] at h; exact absurd h (by simp)
    · rw [hs] at h
      exact ih w2 w1 (sessionInv_step op w w2 hw hs) h

/-- While no session is active, any sequence of operations that contains no
successful `BeginSession` completes, leaves every file unchanged and leaves no
session active. -/
theorem run_no_open_begin (ops : List Op) : ∀ w, w.recorder.current_session = none →
    (∀ op ∈ ops, NoOpenBegin op) →
    ∃ w2, run ops w = some w2 ∧ w2.files = w.files ∧
      w2.recorder.current_session = none := by
  induction ops with
  | nil => exact fun w h _ => ⟨w, rfl, rfl, h⟩
  | cons op t ih =>
    intro w h hall
    have hop : NoOpenBegin op := hall op (List.mem_cons_self ..)
    have htl : ∀ o ∈ t, NoOpenBegin o := fun o ho => hall o (List.mem_cons_of_mem _ ho)
    cases op with
    | beginSession n fp ok =>
      have hok : ok = false := hop
      subst hok
      have hstep : stepOp (Op.beginSession n fp false) w
          = some { w with recorder := { w.recorder with first_record := some true },
                          log := w.log ++ [openFailMsg fp] } := by
        simp [stepOp, beginSessionF, h]
      obtain ⟨w2, h2, hf, hs⟩ := ih
        { w with recorder := { w.recorder with first_record := some true },
                 log := w.log ++ [openFailMsg fp] } h htl
      exact ⟨w2, by rw [run, hstep]; exact h2, hf, hs⟩
    | endSession =>
      have hstep : stepOp Op.endSession w = some w := by
        simp [stepOp, endSessionF, h]
      obtain ⟨w2, h2, hf, hs⟩ := ih w h htl
      exact ⟨w2, by rw [run, hstep]; exact h2, hf, hs⟩
    | writeRecord r g =>
      have hfw : (writeRecordF r g w).files = w.files := by
        simp [writeRecordF, h]
      have hsw : (writeRecordF r g w).recorder.current_session = none := by
        simp [writeRecordF, h]
      obtain ⟨w2, h2, hf, hs⟩ := ih (writeRecordF r g w) hsw htl
      exact ⟨w2, by rw [run]; exact h2, by rw [hf, hfw], hs⟩

/-- C7: a `BeginSession` whose file open fails (with no session previously
active) completes without signalling failure, logs the error, constructs no
session, writes no header (all files untouched), and every following sequence
of operations without a successful `BeginSession` leaves all files
unchanged. -/
theorem c7_open_failure_disables (w : World) (name fp : String)
    (h : w.recorder.current_session = none) :
    ∃ w1, stepOp (Op.beginSession name fp false) w = some w1 ∧
      w1.recorder.current_session = none ∧
      w1.recorder.output_stream = w.recorder.output_stream ∧
      w1.files = w.files ∧
      w1.log = w.log ++ [openFailMsg fp] ∧
      ∀ ops, (∀ op ∈ ops, NoOpenBegin op) →
        ∃ w2, run ops w1 = some w2 ∧ w2.files = w1.files ∧
          w2.recorder.current_session = none := by
  refine ⟨{ w with recorder := { w.recorder with first_record := some true },
                   log := w.log ++ [openFailMsg fp] }, ?_, h, rfl, rfl, rfl, ?_⟩
  · simp [stepOp, beginSessionF, h]
  · intro ops hops
    exact run_no_open_begin ops _ h hops

theorem c7_witness :
    ∃ w1, stepOp (Op.beginSession "T" "out.json" false) initWorld = some w1 ∧
      w1.recorder.current_session = none ∧
      w1.recorder.output_stream = initWorld.recorder.output_stream ∧
      w1.files = initWorld.files ∧
      w1.log = initWorld.log ++ [openFailMsg "out.json"] ∧
      ∀ ops, (∀ op ∈ ops, NoOpenBegin op) →
        ∃ w2, run ops w1 = some w2 ∧ w2.files = w1.files ∧
          w2.recorder.current_session = none :=
  c7_open_failure_disables initWorld "T" "out.json" rfl

theorem c10_witness :
    (writeRecordF { name := "A", start := 0, end_ := 0, thread_id := 0 } true
        initWorld).uninit_reads = initWorld.uninit_reads + 1 ∧
    (writeRecordF { name := "A", start := 0, end_ := 0, thread_id := 0 } true
        initWorld).files = initWorld.files ∧
    (writeRecordF { name := "A", start := 0, end_ := 0, thread_id := 0 } false
        initWorld).files
      = (writeRecordF { name := "A", start := 0, end_ := 0, thread_id := 0 } true
        initWorld).files :=
  c10_uninit_read_harmless _ true false initWorld rfl rfl

/-! ### Value-level parse lemmas -/

theorem parseVal_str (s : List Char) (h : GoodChars s) :
    ParsesFree 1 ('"' :: (s ++ ['"'])) (Json.str (String.mk s)) := by
  intro F hF rest
  obtain ⟨G, rfl⟩ : ∃ G, F = G + 1 := ⟨F - 1, by omega⟩
  have heq : ('"' :: (s ++ ['"'])) ++ rest = '"' :: (s ++ '"' :: rest) := by simp
  rw [heq]
  unfold parseVal
  rw [skipWs_not_ws _ _ (by decide)]
  dsimp only
  rw [if_pos rfl, scanStringAux_good s rest h]
  rfl

theorem parseVal_int (i : Int) :
    ∃ v : Int, ParsesAt 1 (toString i).data (Json.num v) := by
  obtain ⟨v, hv⟩ := scanNumber_int i
  refine ⟨v, ?_⟩
  intro F hF c rest hc
  obtain ⟨G, rfl⟩ : ∃ G, F = G + 1 := ⟨F - 1, by omega⟩
  cases i with
  | ofNat n =>
    have hv2 : scanNumber ((Nat.repr n).data ++ c :: rest) = some (v, c :: rest) :=
      hv c rest hc
    show parseVal (G + 1) ((Nat.repr n).data ++ c :: rest) = some (Json.num v, c :: rest)
    rcases hd : (Nat.repr n).data with _ | ⟨d, dt⟩
    · exact absurd hd (natRepr_ne_nil n)
    · obtain ⟨hw, h1, h2, h3, h4, h5, h6, _⟩ :=
        digit_char_facts d ((hd ▸ natRepr_digits n) d (List.mem_cons_self ..))
      rw [hd] at hv2
      rw [List.cons_append] at hv2 ⊢
      unfold parseVal
      rw [skipWs_not_ws _ _ hw]
      dsimp only
      rw [if_neg h1, if_neg h2, if_neg h3, if_neg h4, if_neg h5, if_neg h6, hv2]
      rfl
  | negSucc m =>
    have hv2 : scanNumber ('-' :: ((Nat.repr (m + 1)).data ++ c :: rest))
        = some (v, c :: rest) := hv c rest hc
    show parseVal (G + 1) ('-' :: ((Nat.repr (m + 1)).data ++ c :: rest))
      = some (Json.num v, c :: rest)
    unfold parseVal
    rw [skipWs_not_ws _ _ (by decide)]
    dsimp only
    rw [if_neg (by decide), if_neg (by decide), if_neg (by decide), if_neg (by decide),
      if_neg (by decide), if_neg (by decide), hv2]
    rfl

theorem parseVal_nat (n : Nat) :
    ∃ v : Int, ParsesAt 1 (toString n).data (Json.num v) := by
  obtain ⟨v, hv⟩ := parseVal_int (Int.ofNat n)
  exact ⟨v, hv⟩

theorem parseVal_empty_obj :
    ParsesFree 2 [' ', '\x7b', '\x7d'] (Json.obj []) := by
  intro F hF rest
  obtain ⟨H, rfl⟩ : ∃ H, F = H + 1 + 1 := ⟨F - 2, by omega⟩
  show parseVal (H + 1 + 1) (' ' :: '\x7b' :: '\x7d' :: rest) = some (Json.obj [], rest)
  unfold parseVal
  rw [show skipWs (' ' :: '\x7b' :: '\x7d' :: rest) = '\x7b' :: '\x7d' :: rest from by
    simp [skipWs, isWsChar]]
  dsimp only
  rw [if_neg (by decide), if_pos rfl, skipWs_not_ws _ _ (by decide)]
  unfold parseObjItems
  rfl

theorem escapeName_good (s : String) (h : GoodName s) :
    GoodChars (escapeName s).data := by
  intro c hc
  have hc2 : c ∈ s.data.map (replChar '"' '\'') := hc
  obtain ⟨a, ha, rfl⟩ := List.mem_map.mp hc2
  obtain ⟨h1, h2⟩ := h a ha
  unfold replChar
  by_cases hq : a = '"'
  · rw [if_pos hq]
    exact ⟨by decide, by decide, by decide⟩
  · rw [if_neg hq]
    exact ⟨hq, h1, h2⟩

theorem objJoin_cons_head (m : List Char × List Char)
    (ms : List (List Char × List Char)) :
    ∃ t, objJoin (m :: ms) = '"' :: t := by
  obtain ⟨k, v⟩ := m
  cases ms with
  | nil => exact ⟨_, rfl⟩
  | cons a b => exact ⟨_, rfl⟩

theorem arrJoin_cons_head (x : List Char) (xs : List (List Char)) (t : List Char)
    (hx : x = '\x7b' :: t) :
    ∃ u, arrJoin (x :: xs) = '\x7b' :: u := by
  subst hx
  cases xs with
  | nil => exact ⟨_, rfl⟩
  | cons a b => exact ⟨_, rfl⟩

/-! ### Chained members and items -/

theorem parseObjTail_chain (ms : List (List Char × List Char × Json)) (n : Nat) :
    ms ≠ [] →
    (∀ m ∈ ms, GoodChars m.1 ∧ ParsesAt n m.2.1 m.2.2) →
    ∀ F, ms.length + n ≤ F → ∀ rest,
      parseObjTail F (objJoin (ms.map (fun m => (m.1, m.2.1))) ++ rest)
        = some (ms.map (fun m => (String.mk m.1, m.2.2)), rest) := by
  induction ms with
  | nil => intro h; exact absurd rfl h
  | cons m tail ih =>
    intro _ hall F hF rest
    obtain ⟨k, v, j⟩ := m
    obtain ⟨hk, hv⟩ := hall _ (List.mem_cons_self ..)
    have htall : ∀ x ∈ tail, GoodChars x.1 ∧ ParsesAt n x.2.1 x.2.2 :=
      fun x hx => hall x (List.mem_cons_of_mem _ hx)
    obtain ⟨G, rfl⟩ : ∃ G, F = G + 1 := ⟨F - 1, by simp [List.length_cons] at hF; omega⟩
    cases tail with
    | nil =>
      have heq : objJoin ([((k, v, j) : List Char × List Char × Json)].map
            (fun m => (m.1, m.2.1))) ++ rest
          = '"' :: (k ++ '"' :: ':' :: (v ++ '\x7d' :: rest)) := by
        simp [objJoin]
      rw [heq]
      unfold parseObjTail
      dsimp only
      rw [scanStringAux_good k _ hk]
      dsimp only
      rw [skipWs_not_ws _ _ (by decide)]
      dsimp only
      rw [hv G (by simp [List.length_cons] at hF; omega) '\x7d' rest (Or.inr rfl)]
      dsimp only
      rw [skipWs_not_ws _ _ (by decide)]
      rfl
    | cons m2 tail2 =>
      have heq : objJoin (((k, v, j) :: m2 :: tail2).map (fun m => (m.1, m.2.1))) ++ rest
          = '"' :: (k ++ '"' :: ':' ::
              (v ++ ',' :: (objJoin ((m2 :: tail2).map (fun m => (m.1, m.2.1))) ++ rest))) := by
        simp [objJoin]
      rw [heq]
      unfold parseObjTail
      dsimp only
      rw [scanStringAux_good k _ hk]
      dsimp only
      rw [skipWs_not_ws _ _ (by decide)]
      dsimp only
      rw [hv G (by simp [List.length_cons] at hF; omega) ',' _ (Or.inl rfl)]
      dsimp only
      rw [skipWs_not_ws _ _ (by decide)]
      dsimp only
      rw [show skipWs (objJoin ((m2 :: tail2).map (fun m => (m.1, m.2.1))) ++ rest)
            = objJoin ((m2 :: tail2).map (fun m => (m.1, m.2.1))) ++ rest from by
        obtain ⟨t0, ht0⟩ :=
          objJoin_cons_head (m2.1, m2.2.1) (tail2.map (fun m => (m.1, m.2.1)))
        rw [List.map_cons, ht0, List.cons_append]
        exact skipWs_not_ws _ _ (by decide)]
      rw [ih (by simp) htall G (by simp at hF ⊢; omega) rest]
      rfl

theorem parseArrTail_chain (items : List (List Char × Json)) (n : Nat) :
    items ≠ [] →
    (∀ it ∈ items, (∃ t, it.1 = '\x7b' :: t) ∧ ParsesFree n it.1 it.2) →
    ∀ F, items.length + n ≤ F → ∀ rest,
      parseArrTail F (arrJoin (items.map (fun it => it.1)) ++ rest)
        = some (items.map (fun it => it.2), rest) := by
  induction items with
  | nil => intro h; exact absurd rfl h
  | cons it tail ih =>
    intro _ hall F hF rest
    obtain ⟨v, j⟩ := it
    obtain ⟨⟨t0, ht0⟩, hfree⟩ := hall _ (List.mem_cons_self ..)
    have htall : ∀ x ∈ tail, (∃ t, x.1 = '\x7b' :: t) ∧ ParsesFree n x.1 x.2 :=
      fun x hx => hall x (List.mem_cons_of_mem _ hx)
    obtain ⟨G, rfl⟩ : ∃ G, F = G + 1 := ⟨F - 1, by simp [List.length_cons] at hF; omega⟩
    cases tail with
    | nil =>
      have heq : arrJoin ([((v, j) : List Char × Json)].map (fun it => it.1)) ++ rest
          = v ++ ']' :: rest := by
        simp [arrJoin]
      rw [heq]
      unfold parseArrTail
      rw [hfree G (by simp [List.length_cons] at hF; omega) (']' :: rest)]
      dsimp only
      rw [skipWs_not_ws _ _ (by decide)]
      rfl
    | cons it2 tail2 =>
      obtain ⟨⟨t2, ht2⟩, _⟩ := hall _ (List.mem_cons_of_mem _ (List.mem_cons_self ..))
      have heq : arrJoin (((v, j) :: it2 :: tail2).map (fun it => it.1)) ++ rest
          = v ++ ',' :: (arrJoin ((it2 :: tail2).map (fun it => it.1)) ++ rest) := by
        simp [arrJoin]
      rw [heq]
      unfold parseArrTail
      rw [hfree G (by simp [List.length_cons] at hF; omega) (',' :: (arrJoin ((it2 :: tail2).map (fun it => it.1)) ++ rest))]
      dsimp only
      rw [skipWs_not_ws _ _ (by decide)]
      dsimp only
      rw [show skipWs (arrJoin ((it2 :: tail2).map (fun it => it.1)) ++ rest)
            = arrJoin ((it2 :: tail2).map (fun it => it.1)) ++ rest from by
        obtain ⟨u, hu⟩ := arrJoin_cons_head it2.1 (tail2.map (fun it => it.1)) t2 ht2
        rw [List.map_cons, hu, List.cons_append]
        exact skipWs_not_ws _ _ (by decide)]
      rw [ih (by simp) htall G (by simp at hF ⊢; omega) rest]
      rfl

theorem parseVal_arr (items : List (List Char × Json)) (n : Nat)
    (hhead : ∀ it ∈ items, ∃ t, it.1 = '\x7b' :: t)
    (hfree : ∀ it ∈ items, ParsesFree n it.1 it.2) :
    ParsesFree (items.length + n + 2) ('[' :: arrJoin (items.map (fun it => it.1)))
      (Json.arr (items.map (fun it => it.2))) := by
  intro F hF rest
  obtain ⟨G, rfl⟩ : ∃ G, F = G + 1 := ⟨F - 1, by omega⟩
  rw [List.cons_append]
  unfold parseVal
  rw [skipWs_not_ws _ _ (by decide)]
  dsimp only
  rw [if_neg (by decide), if_neg (by decide), if_pos rfl]
  cases items with
  | nil =>
    rw [show arrJoin (List.map (fun (it : List Char × Json) => it.1) []) ++ rest
          = ']' :: rest from rfl]
    rw [skipWs_not_ws _ _ (by decide)]
    obtain ⟨H, rfl⟩ : ∃ H, G = H + 1 := ⟨G - 1, by omega⟩
    unfold parseArrItems
    dsimp only
    rw [if_pos rfl]
    rfl
  | cons it tail =>
    obtain ⟨t0, ht0⟩ := hhead it (List.mem_cons_self ..)
    obtain ⟨u, hu⟩ := arrJoin_cons_head it.1 (tail.map (fun x => x.1)) t0 ht0
    rw [List.map_cons]
    rw [show skipWs (arrJoin (it.1 :: tail.map (fun x => x.1)) ++ rest)
          = arrJoin (it.1 :: tail.map (fun x => x.1)) ++ rest from by
      rw [hu, List.cons_append]; exact skipWs_not_ws _ _ (by decide)]
    obtain ⟨H, rfl⟩ : ∃ H, G = H + 1 := ⟨G - 1, by simp [List.length_cons] at hF; omega⟩
    unfold parseArrItems
    rw [hu, List.cons_append]
    dsimp only
    rw [if_neg (by decide), ← List.cons_append, ← hu, ← List.map_cons]
    rw [parseArrTail_chain (it :: tail) n (by simp)
      (fun x hx => ⟨hhead x hx, hfree x hx⟩) H
      (by simp [List.length_cons] at hF ⊢; omega) rest]
    rfl

theorem parseVal_objStr (r : Result) (h : GoodName r.name) :
    ∃ j, ParsesFree 10 (objStr r).data j := by
  obtain ⟨vdur, hdur⟩ := parseVal_int (r.end_ - r.start)
  obtain ⟨vtid, htid⟩ := parseVal_nat r.thread_id
  obtain ⟨vts, hts⟩ := parseVal_int r.start
  obtain ⟨vpid, hpid⟩ := parseVal_int 0
  have hname := parseVal_str (escapeName r.name).data (escapeName_good _ h)
  have hfunc := parseVal_str ("function" : String).data (by decide)
  have hX := parseVal_str ("X" : String).data (by decide)
  set MS : List (List Char × List Char × Json) :=
    [(("cat" : String).data, '"' :: (("function" : String).data ++ ['"']),
        Json.str (String.mk ("function" : String).data)),
     (("dur" : String).data, (toString (r.end_ - r.start)).data, Json.num vdur),
     (("name" : String).data, '"' :: ((escapeName r.name).data ++ ['"']),
        Json.str (String.mk (escapeName r.name).data)),
     (("ph" : String).data, '"' :: (("X" : String).data ++ ['"']),
        Json.str (String.mk ("X" : String).data)),
     (("pid" : String).data, (toString (0 : Int)).data, Json.num vpid),
     (("tid" : String).data, (toString r.thread_id).data, Json.num vtid),
     (("ts" : String).data, (toString r.start).data, Json.num vts)] with hMS
  have hmap : MS.map (fun m => (m.1, m.2.1))
      = [(("cat" : String).data, '"' :: (("function" : String).data ++ ['"'])),
         (("dur" : String).data, (toString (r.end_ - r.start)).data),
         (("name" : String).data, '"' :: ((escapeName r.name).data ++ ['"'])),
         (("ph" : String).data, '"' :: (("X" : String).data ++ ['"'])),
         (("pid" : String).data, (toString (0 : Int)).data),
         (("tid" : String).data, (toString r.thread_id).data),
         (("ts" : String).data, (toString r.start).data)] := by
    rw [hMS]
    rfl
  have hmem : ∀ m ∈ MS, GoodChars m.1 ∧ ParsesAt 1 m.2.1 m.2.2 := by
    rw [hMS]
    intro m hm
    simp only [List.mem_cons, List.not_mem_nil, or_false] at hm
    rcases hm with rfl | rfl | rfl | rfl | rfl | rfl | rfl
    · exact ⟨by dsimp only; decide, fun F2 hF2 c rest2 _ => hfunc F2 hF2 (c :: rest2)⟩
    · exact ⟨by dsimp only; decide, hdur⟩
    · exact ⟨by dsimp only; decide, fun F2 hF2 c rest2 _ => hname F2 hF2 (c :: rest2)⟩
    · exact ⟨by dsimp only; decide, fun F2 hF2 c rest2 _ => hX F2 hF2 (c :: rest2)⟩
    · exact ⟨by dsimp only; decide, hpid⟩
    · exact ⟨by dsimp only; decide, htid⟩
    · exact ⟨by dsimp only; decide, hts⟩
  have hlen : MS.length = 7 := by rw [hMS]; rfl
  refine ⟨Json.obj (MS.map (fun m => (String.mk m.1, m.2.2))), ?_⟩
  intro F hF rest
  obtain ⟨H, rfl⟩ : ∃ H, F = H + 1 + 1 := ⟨F - 2, by omega⟩
  have hchars : (objStr r).data = '\x7b' :: objJoin (MS.map (fun m => (m.1, m.2.1))) := by
    rw [hmap]
    simp only [objStr, recordBody, String.data_append]
    rw [show (toString (0 : Int)).data = ['0'] from rfl]
    simp only [objJoin]
    simp [List.append_assoc]
  obtain ⟨t1, ht1⟩ : ∃ t1, objJoin (MS.map (fun m => (m.1, m.2.1))) = '"' :: t1 := by
    rw [hmap]
    exact objJoin_cons_head _ _
  rw [hchars, List.cons_append]
  unfold parseVal
  rw [skipWs_not_ws _ _ (by decide)]
  dsimp only
  rw [if_neg (by decide), if_pos rfl]
  rw [show skipWs (objJoin (MS.map (fun m => (m.1, m.2.1))) ++ rest)
        = objJoin (MS.map (fun m => (m.1, m.2.1))) ++ rest from by
    rw [ht1, List.cons_append]
    exact skipWs_not_ws _ _ (by decide)]
  unfold parseObjItems
  rw [ht1, List.cons_append]
  dsimp only
  rw [if_neg (by decide), ← List.cons_append, ← ht1]
  rw [parseObjTail_chain MS 1 (by rw [hMS]; simp) hmem H (by rw [hlen]; omega) rest]
  rfl

/-! ### Whole-document parsing -/

theorem objStr_items (rs : List Result) (hgood : ∀ r ∈ rs, GoodName r.name) :
    ∃ items : List (List Char × Json),
      items.map (fun it => it.1) = rs.map (fun r => (objStr r).data) ∧
      items.length = rs.length ∧
      (∀ it ∈ items, (∃ t, it.1 = '\x7b' :: t) ∧ ParsesFree 10 it.1 it.2) := by
  induction rs with
  | nil => exact ⟨[], rfl, rfl, by simp⟩
  | cons r tail ih =>
    obtain ⟨items, h1, h2, h3⟩ := ih (fun x hx => hgood x (List.mem_cons_of_mem _ hx))
    obtain ⟨j, hj⟩ := parseVal_objStr r (hgood r (List.mem_cons_self ..))
    refine ⟨((objStr r).data, j) :: items, ?_, ?_, ?_⟩
    · simp [h1]
    · simp [h2]
    · intro it hit
      rcases List.mem_cons.mp hit with rfl | hit2
      · refine ⟨⟨(recordBody r).data, ?_⟩, hj⟩
        rw [objStr, String.data_append]
        rfl
      · exact h3 it hit2

theorem sepJoin_objStr_data (rs : List Result) (extra : List Char) :
    (sepJoin (rs.map objStr)).data ++ ']' :: extra
      = arrJoin (rs.map (fun r => (objStr r).data)) ++ extra := by
  induction rs with
  | nil => rfl
  | cons r tail ih =>
    cases tail with
    | nil => simp [sepJoin, arrJoin]
    | cons r2 tail2 =>
      simp only [List.map_cons]
      rw [show sepJoin (objStr r :: objStr r2 :: List.map objStr tail2)
            = objStr r ++ "," ++ sepJoin (objStr r2 :: List.map objStr tail2) from rfl]
      rw [show arrJoin ((objStr r).data :: (objStr r2).data
              :: List.map (fun x => (objStr x).data) tail2)
            = (objStr r).data ++ ',' :: arrJoin ((objStr r2).data
              :: List.map (fun x => (objStr x).data) tail2) from rfl]
      rw [String.data_append, String.data_append,
        show ("," : String).data = [','] from rfl]
      simp only [List.map_cons] at ih
      simp only [List.append_assoc, List.singleton_append, List.cons_append]
      rw [ih]
      simp

theorem docString_data (rs : List Result) :
    (docString rs).data
      = '\x7b' :: objJoin [(("otherData" : String).data, [' ', '\x7b', '\x7d']),
          (("traceEvents" : String).data,
            '[' :: arrJoin (rs.map (fun r => (objStr r).data)))] := by
  rw [docString, String.data_append, String.data_append]
  rw [show footerStr.data = [']', '\x7d'] from rfl]
  rw [show headerStr.data = ['\x7b', '"', 'o', 't', 'h', 'e', 'r', 'D', 'a', 't', 'a', '"',
        ':', ' ', '\x7b', '\x7d', ',', '"', 't', 'r', 'a', 'c', 'e', 'E', 'v', 'e', 'n',
        't', 's', '"', ':', '['] from rfl]
  simp only [objJoin]
  simp only [List.append_assoc, List.cons_append, List.singleton_append]
  rw [sepJoin_objStr_data rs ['\x7d']]
  simp [List.append_assoc]

theorem sepJoin_length_ge (xs : List String) (h : ∀ x ∈ xs, 1 ≤ x.length) :
    xs.length ≤ (sepJoin xs).length := by
  induction xs with
  | nil => simp [sepJoin]
  | cons x t ih =>
    cases t with
    | nil => simpa [sepJoin] using h x (List.mem_cons_self ..)
    | cons y t2 =>
      have hx := h x (List.mem_cons_self ..)
      have ht := ih (fun z hz => h z (List.mem_cons_of_mem _ hz))
      rw [show sepJoin (x :: y :: t2) = x ++ "," ++ sepJoin (y :: t2) from rfl]
      rw [String.length_append, String.length_append,
        show ("," : String).length = 1 from rfl]
      simp only [List.length_cons] at *
      omega

theorem docString_length_ge (rs : List Result) :
    rs.length + 16 ≤ (docString rs).length + 1 := by
  have h1 : ∀ x ∈ rs.map objStr, 1 ≤ String.length x := by
    intro x hx
    obtain ⟨r, _, rfl⟩ := List.mem_map.mp hx
    rw [objStr, String.length_append, show ("\x7b" : String).length = 1 from rfl]
    omega
  have h2 := sepJoin_length_ge _ h1
  rw [docString, String.length_append, String.length_append,
    show headerStr.length = 32 from rfl, show footerStr.length = 2 from rfl]
  simp only [List.length_map] at h2
  omega

theorem docString_parses (rs : List Result) (hgood : ∀ r ∈ rs, GoodName r.name) :
    ∃ vs : List Json,
      jsonParse (docString rs)
        = some (Json.obj [("otherData", Json.obj []), ("traceEvents", Json.arr vs)]) ∧
      vs.length = rs.length := by
  obtain ⟨items, hmapi, hleni, hprops⟩ := objStr_items rs hgood
  have hTE : ParsesFree (items.length + 10 + 2) ('[' :: arrJoin (items.map (fun it => it.1)))
      (Json.arr (items.map (fun it => it.2))) :=
    parseVal_arr items 10 (fun it hit => (hprops it hit).1) (fun it hit => (hprops it hit).2)
  rw [hmapi] at hTE
  set vs := items.map (fun it => it.2) with hvs
  set MS2 : List (List Char × List Char × Json) :=
    [(("otherData" : String).data, [' ', '\x7b', '\x7d'], Json.obj []),
     (("traceEvents" : String).data,
        '[' :: arrJoin (rs.map (fun r => (objStr r).data)), Json.arr vs)] with hMS2
  have hmap2 : MS2.map (fun m => (m.1, m.2.1))
      = [(("otherData" : String).data, [' ', '\x7b', '\x7d']),
         (("traceEvents" : String).data,
           '[' :: arrJoin (rs.map (fun r => (objStr r).data)))] := by
    rw [hMS2]
    rfl
  have hmem2 : ∀ m ∈ MS2, GoodChars m.1 ∧ ParsesAt (rs.length + 12) m.2.1 m.2.2 := by
    rw [hMS2]
    intro m hm
    simp only [List.mem_cons, List.not_mem_nil, or_false] at hm
    rcases hm with rfl | rfl
    · refine ⟨by dsimp only; decide, ?_⟩
      intro F hF c rest2 _
      exact parseVal_empty_obj F (by omega) (c :: rest2)
    · refine ⟨by dsimp only; decide, ?_⟩
      intro F hF c rest2 _
      exact hTE F (by omega) (c :: rest2)
  refine ⟨vs, ?_, by rw [hvs, List.length_map, hleni]⟩
  unfold jsonParse
  have hfuel : rs.length + 16 ≤ (docString rs).data.length + 1 := docString_length_ge rs
  obtain ⟨H, hH, hHeq⟩ : ∃ H, rs.length + 14 ≤ H ∧
      (docString rs).data.length + 1 = H + 1 + 1 :=
    ⟨(docString rs).data.length - 1, by omega, by omega⟩
  rw [hHeq, docString_data rs, ← hmap2]
  unfold parseVal
  rw [skipWs_not_ws _ _ (by decide)]
  dsimp only
  rw [if_neg (by decide), if_pos rfl]
  obtain ⟨t2, ht2⟩ : ∃ t2, objJoin (MS2.map (fun m => (m.1, m.2.1))) = '"' :: t2 := by
    rw [hmap2]
    exact objJoin_cons_head _ _
  rw [show skipWs (objJoin (MS2.map (fun m => (m.1, m.2.1))))
        = objJoin (MS2.map (fun m => (m.1, m.2.1))) from by
    rw [ht2]
    exact skipWs_not_ws _ _ (by decide)]
  unfold parseObjItems
  rw [ht2]
  dsimp only
  rw [if_neg (by decide), ← ht2]
  rw [show objJoin (MS2.map (fun m => (m.1, m.2.1)))
        = objJoin (MS2.map (fun m => (m.1, m.2.1))) ++ [] from by simp]
  rw [parseObjTail_chain MS2 (rs.length + 12) (by rw [hMS2]; simp) hmem2 H
    (by rw [hMS2]; simp only [List.length_cons, List.length_nil]; omega) []]
  rfl

/-! ### Claim C1 and C8 -/

/-- C1 (amended): after a matched `EndSession` on any reachable state whose
session is open on file `f`, the file holds exactly the header, the
comma-joined accepted fragments (no comma before the first accepted record,
exactly one before each later one) and the footer; provided every accepted
record's name contains no backslash and no raw control character, that
content is syntactically valid JSON whose `traceEvents` member is an array
with exactly one element per accepted record. -/
theorem c1_session_file_valid_json (ops : List Op) (w : World) (f : String)
    (hrun : run ops initWorld = some w)
    (hs : w.recorder.output_stream = some f)
    (hgood : ∀ r ∈ w.cur_records, GoodName r.name) :
    getFile (endSessionF w).files f
        = some (headerStr ++ sepJoin (w.cur_records.map objStr) ++ footerStr) ∧
    ∃ vs : List Json,
      jsonParse (headerStr ++ sepJoin (w.cur_records.map objStr) ++ footerStr)
        = some (Json.obj [("otherData", Json.obj []), ("traceEvents", Json.arr vs)]) ∧
      vs.length = w.cur_records.length := by
  have hinv := sessionInv_run ops initWorld w sessionInv_init hrun
  unfold SessionInv at hinv
  rcases hcs : w.recorder.current_session with _ | s
  · rw [hcs, hs] at hinv
    exact absurd hinv not_false
  · rw [hcs, hs] at hinv
    obtain ⟨hcontent, hflag⟩ := hinv
    constructor
    · unfold endSessionF
      simp only [hcs, hs]
      rw [getFile_appendFile_self, hcontent]
      rfl
    · exact docString_parses w.cur_records hgood

theorem c1_witness :
    getFile (endSessionF c1World).files "out.json"
        = some (headerStr ++ sepJoin (c1World.cur_records.map objStr) ++ footerStr) ∧
    ∃ vs : List Json,
      jsonParse (headerStr ++ sepJoin (c1World.cur_records.map objStr) ++ footerStr)
        = some (Json.obj [("otherData", Json.obj []), ("traceEvents", Json.arr vs)]) ∧
      vs.length = c1World.cur_records.length :=
  c1_session_file_valid_json
    [Op.beginSession "T" "out.json" true,
     Op.writeRecord { name := "A", start := 1000, end_ := 1500, thread_id := 7 } false]
    c1World "out.json" rfl rfl (by decide)

/-- C1 counterexample: a record whose name is a single backslash produces,
after a matched `EndSession`, a file that is not syntactically valid JSON —
quote substitution is the only escaping applied, so the backslash swallows
the string's closing quote. -/
theorem c1_counterexample :
    (run [Op.beginSession "T" "out.json" true,
          Op.writeRecord { name := "\\", start := 1000, end_ := 1500, thread_id := 7 } false,
          Op.endSession] initWorld).bind (fun w => getFile w.files "out.json")
      = some "\x7b\"otherData\": \x7b\x7d,\"traceEvents\":[\x7b\"cat\":\"function\",\"dur\":500,\"name\":\"\\\",\"ph\":\"X\",\"pid\":0,\"tid\":7,\"ts\":1000\x7d]\x7d" ∧
    jsonValid "\x7b\"otherData\": \x7b\x7d,\"traceEvents\":[\x7b\"cat\":\"function\",\"dur\":500,\"name\":\"\\\",\"ph\":\"X\",\"pid\":0,\"tid\":7,\"ts\":1000\x7d]\x7d" = false := by
  decide

/-- C8: `WriteRecord` substitutes every double quote in a record name with a
single quote and applies no other transformation (character-wise identity on
all other characters); a record named `Foo"Bar` is written with name
`Foo'Bar`. -/
theorem c8_quote_substitution :
    (∀ s : String, (escapeName s).data
        = s.data.map (fun c => if c = '"' then '\'' else c)) ∧
    (run [Op.beginSession "T" "out.json" true,
          Op.writeRecord { name := "Foo\"Bar", start := 0, end_ := 5, thread_id := 1 } false,
          Op.endSession] initWorld).bind (fun w => getFile w.files "out.json")
      = some "\x7b\"otherData\": \x7b\x7d,\"traceEvents\":[\x7b\"cat\":\"function\",\"dur\":5,\"name\":\"Foo'Bar\",\"ph\":\"X\",\"pid\":0,\"tid\":1,\"ts\":0\x7d]\x7d" :=
  ⟨fun _ => rfl, by decide⟩

end Profiler
